import Mathlib

/-!
Verification of the bggfinna record-matching core.

This file gives a shallow embedding, in Lean, of the entity-resolution engine
of the bggfinna repository (src/match_with_bgg.py, src/bggfinna.py,
src/src/bggfinna/) and proves, or refutes, the properties its specification
states about it.

Modelling conventions:
* Python dicts for records become Lean structures; optional fields become
  `Option`.
* File contents are lists of bytes (`List Nat`, newline = 10); a missing file
  is `none`.
* External providers (the BGG search/detail APIs) are oracle functions passed
  as parameters.
* Python exceptions are modelled with `Except`; a caught exception is a
  handled `.error` branch.
* A handful of functions are absent from the repository snapshot (only their
  tests and call sites exist); those are modelled from the specification and
  carry a doc comment starting `Modelled from the spec:`.
-/

namespace BggFinna

/-! ## Byte-level output-store truncation (src/bggfinna.py, truncate_incomplete_output) -/

/-- Index of the last newline byte (10) in a byte list, if any: the model of
the Python rfind of the newline byte on the content, restricted to the found/not-found outcome. -/
def rfindNewline : List Nat → Option Nat
  | [] => none
  | b :: rest =>
    match rfindNewline rest with
    | some k => some (k + 1)
    | none => if b = 10 then some 0 else none

/-- Model of the Python endswith-newline test on the content. -/
def endsWithNewline (c : List Nat) : Bool :=
  match c.getLast? with
  | some b => b = 10
  | none => false

/-- Embedding of `truncate_incomplete_output` (src/bggfinna.py lines 31-58) on
the content of the store. `none` models a missing file (both for the input, when the
file does not exist, and for the output, when the source removes the file
because no complete line exists). The returned content is what the file holds
after the call. -/
def truncate_incomplete_output (st : Option (List Nat)) : Option (List Nat) :=
  match st with
  | none => none
  | some c =>
    if c = [] then some c
    else if endsWithNewline c then some c
    else
      match rfindNewline c with
      | some k => some (c.take (k + 1))
      | none => none

/-- The complete (newline-terminated) rows of a byte list, in order; a trailing
fragment with no final newline is not a row. `acc` holds the bytes of the
current line read so far, in reverse. -/
def completeLinesAux : List Nat → List Nat → List (List Nat)
  | _, [] => []
  | acc, b :: rest =>
    if b = 10 then acc.reverse :: completeLinesAux [] rest
    else completeLinesAux (b :: acc) rest

/-- The complete newline-terminated rows of a file content. -/
def completeLines (c : List Nat) : List (List Nat) :=
  completeLinesAux [] c

/-- Complete rows of a possibly-missing file. -/
def rowsOf : Option (List Nat) → List (List Nat)
  | none => []
  | some c => completeLines c

theorem rfindNewline_lt_length {c : List Nat} {k : Nat}
    (h : rfindNewline c = some k) : k < c.length := by
  induction c generalizing k with
  | nil => simp [rfindNewline] at h
  | cons b rest ih =>
    simp only [rfindNewline] at h
    cases hr : rfindNewline rest with
    | some k' =>
      rw [hr] at h
      cases h
      have := ih hr
      simp [List.length_cons]
      omega
    | none =>
      rw [hr] at h
      by_cases hb : b = 10
      · simp [hb] at h
        cases h
        simp
      · simp [hb] at h

theorem rfindNewline_none_no_newline {c : List Nat}
    (h : rfindNewline c = none) : ∀ b ∈ c, b ≠ 10 := by
  induction c with
  | nil => intro b hb; simp at hb
  | cons x rest ih =>
    simp only [rfindNewline] at h
    cases hr : rfindNewline rest with
    | some k' => rw [hr] at h; cases h
    | none =>
      rw [hr] at h
      by_cases hx : x = 10
      · simp [hx] at h
      · intro b hb
        rcases List.mem_cons.mp hb with h1 | h2
        · rw [h1]; exact hx
        · exact ih hr b h2

theorem endsWithNewline_cons {x : Nat} {l : List Nat} (h : l ≠ []) :
    endsWithNewline (x :: l) = endsWithNewline l := by
  cases l with
  | nil => cases h rfl
  | cons y t => simp [endsWithNewline, List.getLast?_cons_cons]

theorem rfindNewline_spec {c : List Nat} {k : Nat}
    (h : rfindNewline c = some k) :
    endsWithNewline (c.take (k + 1)) = true ∧ ∀ b ∈ c.drop (k + 1), b ≠ 10 := by
  induction c generalizing k with
  | nil => simp [rfindNewline] at h
  | cons x rest ih =>
    simp only [rfindNewline] at h
    cases hr : rfindNewline rest with
    | some k' =>
      rw [hr] at h
      cases h
      obtain ⟨he, hd⟩ := ih hr
      constructor
      · have hlt := rfindNewline_lt_length hr
        have htne : rest.take (k' + 1) ≠ [] := by
          cases rest with
          | nil => simp at hlt
          | cons y t => simp [List.take_succ_cons]
        rw [List.take_succ_cons, endsWithNewline_cons htne]
        exact he
      · simpa [List.drop] using hd
    | none =>
      rw [hr] at h
      by_cases hx : x = 10
      · simp [hx] at h
        cases h
        constructor
        · simp [hx, List.take_cons, endsWithNewline]
        · simpa [List.drop] using rfindNewline_none_no_newline hr
      · simp [hx] at h

theorem completeLinesAux_no_newline {l : List Nat} (h : ∀ b ∈ l, b ≠ 10)
    (acc : List Nat) : completeLinesAux acc l = [] := by
  induction l generalizing acc with
  | nil => simp [completeLinesAux]
  | cons b rest ih =>
    have hb : b ≠ 10 := h b (List.mem_cons_self _ _)
    simp only [completeLinesAux, if_neg hb]
    exact ih (fun x hx => h x (List.mem_cons_of_mem _ hx)) _

theorem completeLinesAux_append_no_newline {l2 : List Nat}
    (h : ∀ b ∈ l2, b ≠ 10) (l1 acc : List Nat) :
    completeLinesAux acc (l1 ++ l2) = completeLinesAux acc l1 := by
  induction l1 generalizing acc with
  | nil => simpa [completeLinesAux] using completeLinesAux_no_newline h acc
  | cons b rest ih =>
    by_cases hb : b = 10
    · simp only [List.cons_append, completeLinesAux, if_pos hb, List.append_eq, ih]
    · simp only [List.cons_append, completeLinesAux, if_neg hb, List.append_eq, ih]

/-- C9: start-of-run truncation. For every store state: a missing, empty, or
newline-terminated content is left byte-for-byte unchanged; otherwise the
content is cut down to `take (k+1)` where `k` is the last newline position — a
newline-terminated prefix with no newline anywhere after it, hence the longest
prefix ending in a newline — and when no newline exists at all the file is
removed. In every case the list of complete newline-terminated rows is
preserved exactly: no complete row is ever lost. -/
theorem truncate_longest_complete_row_preserving (st : Option (List Nat)) :
    (∀ c, st = some c → (c = [] ∨ endsWithNewline c = true) →
      truncate_incomplete_output st = st) ∧
    (truncate_incomplete_output none = none) ∧
    (∀ c k, st = some c → c ≠ [] → endsWithNewline c = false →
      rfindNewline c = some k →
      truncate_incomplete_output st = some (c.take (k + 1)) ∧
        endsWithNewline (c.take (k + 1)) = true ∧
        ∀ b ∈ c.drop (k + 1), b ≠ 10) ∧
    (∀ c, st = some c → c ≠ [] → endsWithNewline c = false →
      rfindNewline c = none → truncate_incomplete_output st = none) ∧
    rowsOf (truncate_incomplete_output st) = rowsOf st := by
  refine ⟨?_, rfl, ?_, ?_, ?_⟩
  · intro c hc hor
    subst hc
    rcases hor with h | h
    · simp [truncate_incomplete_output, h]
    · simp [truncate_incomplete_output, h]
  · intro c k hc hne hend hfind
    subst hc
    refine ⟨?_, (rfindNewline_spec hfind).1, (rfindNewline_spec hfind).2⟩
    simp [truncate_incomplete_output, hne, hend, hfind]
  · intro c hc hne hend hfind
    subst hc
    simp [truncate_incomplete_output, hne, hend, hfind]
  · cases st with
    | none => rfl
    | some c =>
      by_cases hne : c = []
      · simp [truncate_incomplete_output, hne]
      · by_cases hend : endsWithNewline c
        · simp [truncate_incomplete_output, hne, hend]
        · cases hfind : rfindNewline c with
          | some k =>
            simp only [truncate_incomplete_output, if_neg hne, hend,
              Bool.false_eq_true, if_false, hfind, rowsOf, completeLines]
            have hd := (rfindNewline_spec hfind).2
            conv_rhs => rw [← List.take_append_drop (k + 1) c]
            rw [completeLinesAux_append_no_newline hd]
          | none =>
            simp only [truncate_incomplete_output, if_neg hne, hend,
              Bool.false_eq_true, if_false, hfind, rowsOf, completeLines]
            exact (completeLinesAux_no_newline
              (rfindNewline_none_no_newline hfind) []).symm

/-- Witness for C9 at the concrete content "A\nB" (bytes 65,10,66): truncation
cuts the incomplete trailing "B" and keeps the complete row intact. -/
theorem truncate_longest_complete_row_preserving_witness :
    truncate_incomplete_output (some [65, 10, 66]) = some [65, 10] ∧
    rowsOf (truncate_incomplete_output (some [65, 10, 66])) =
      rowsOf (some [65, 10, 66]) := by
  refine ⟨?_, (truncate_longest_complete_row_preserving (some [65, 10, 66])).2.2.2.2⟩
  have h := (truncate_longest_complete_row_preserving
    (some [65, 10, 66])).2.2.1 [65, 10, 66] 1 rfl (by decide) (by decide) (by decide)
  exact h.1

/-! ## Title normalization (src/match_with_bgg.py, normalize_title_for_matching) -/

/-- Membership in Python string.punctuation, by ASCII code: the bytes 33-47,
58-64, 91-96 and 123-126. -/
def isPunct (c : Char) : Bool :=
  (33 ≤ c.toNat && c.toNat ≤ 47) || (58 ≤ c.toNat && c.toNat ≤ 64) ||
  (91 ≤ c.toNat && c.toNat ≤ 96) || (123 ≤ c.toNat && c.toNat ≤ 126)

/-- The whitespace class of Python regular expressions and str.split. -/
def isPySpace (c : Char) : Bool :=
  c == ' ' || c == '\t' || c == '\n' || c == '\r' || c == '\x0b' || c == '\x0c'

/-- Whitespace-separated words of a character list (Python str.split with no
argument); `cur` holds the characters of the current word in reverse. -/
def wordsOfAux : List Char → List Char → List (List Char)
  | cur, [] => if cur.isEmpty then [] else [cur.reverse]
  | cur, c :: rest =>
    if isPySpace c then
      if cur.isEmpty then wordsOfAux [] rest else cur.reverse :: wordsOfAux [] rest
    else wordsOfAux (c :: cur) rest

/-- Whitespace-separated words of a character list. -/
def wordsOf (l : List Char) : List (List Char) :=
  wordsOfAux [] l

/-- Join words with single spaces. -/
def joinWords : List (List Char) → List Char
  | [] => []
  | [w] => w
  | w :: ws => w ++ ' ' :: joinWords ws

/-- Embedding of normalize_title_for_matching (src/match_with_bgg.py lines
232-241) on the characters of a title: lower-case, drop all punctuation,
collapse whitespace runs to single spaces and strip the ends (the last two
steps modelled as split-into-words and re-join, which is equivalent). The
falsy-input branch of the source returns the empty string, which agrees with this
definition at the empty string. -/
def normChars (l : List Char) : List Char :=
  joinWords (wordsOf ((l.map Char.toLower).filter (fun c => !isPunct c)))

/-- normalize_title_for_matching over String. -/
def normalize_title_for_matching (s : String) : String :=
  String.mk (normChars s.data)

/-! ## Candidate records and check_matches (src/match_with_bgg.py lines 243-265) -/

/-- One candidate entry of a BGG title-search response (parse_bgg_search_response). -/
structure BggGame where
  bgg_id : String
  names : List String
  year : Option Int
deriving DecidableEq

/-- One entry of the accumulated match list: the fields of the candidate plus the
match_type tag spread in by check_matches and the author strategies. -/
structure MatchRec where
  bgg_id : String
  names : List String
  year : Option Int
  match_type : String
deriving DecidableEq

/-- Inner loop of check_matches, exact branch, for one candidate name: scan
the query titles in order and emit a single tagged record at the first title
whose normalization equals the normalization of the name. The break at line 256 of
src/match_with_bgg.py leaves only this title loop. -/
def scanTitlesExact (g : BggGame) (name : String) : List String → List MatchRec
  | [] => []
  | t :: ts =>
    if normalize_title_for_matching name = normalize_title_for_matching t then
      [⟨g.bgg_id, g.names, g.year, "exact"⟩]
    else scanTitlesExact g name ts

/-- check_matches with match_type = exact: every candidate, every name
variant, scanning titles with the per-name break above. -/
def check_matches_exact (bgg_games : List BggGame) (finna_titles : List String) :
    List MatchRec :=
  bgg_games.flatMap (fun g => g.names.flatMap (fun n => scanTitlesExact g n finna_titles))

/-- Head-segment test on character lists. -/
def leadsWith : List Char → List Char → Bool
  | [], _ => true
  | _ :: _, [] => false
  | a :: as, b :: bs => a == b && leadsWith as bs

/-- Model of the Python substring test `small in big`. -/
def occursIn (small : List Char) : List Char → Bool
  | [] => small.isEmpty
  | b :: bs => leadsWith small (b :: bs) || occursIn small bs

/-- check_matches inner loop, substring branch (lines 257-263): the query
title must have more than one raw word and its normalization must occur
inside the normalization of the name; same per-name break. -/
def scanTitlesSub (g : BggGame) (name : String) : List String → List MatchRec
  | [] => []
  | t :: ts =>
    if decide (1 < (wordsOf t.data).length) &&
        occursIn (normalize_title_for_matching t).data
          (normalize_title_for_matching name).data then
      [⟨g.bgg_id, g.names, g.year, "substring"⟩]
    else scanTitlesSub g name ts

/-- check_matches with match_type = substring. -/
def check_matches_sub (bgg_games : List BggGame) (finna_titles : List String) :
    List MatchRec :=
  bgg_games.flatMap (fun g => g.names.flatMap (fun n => scanTitlesSub g n finna_titles))

theorem scanTitlesExact_eq (g : BggGame) (n : String) (ts : List String) :
    scanTitlesExact g n ts =
      if ts.any (fun t =>
          normalize_title_for_matching n == normalize_title_for_matching t) then
        [⟨g.bgg_id, g.names, g.year, "exact"⟩]
      else [] := by
  induction ts with
  | nil => simp [scanTitlesExact]
  | cons t ts ih =>
    by_cases h : normalize_title_for_matching n = normalize_title_for_matching t
    · simp [scanTitlesExact, h, List.any_cons]
    · simp [scanTitlesExact, h, List.any_cons, ih]

theorem bind_if_singleton (p : String → Bool) (r : MatchRec) (l : List String) :
    l.flatMap (fun a => if p a then [r] else []) = (l.filter p).map (fun _ => r) := by
  induction l with
  | nil => rfl
  | cons a l ih =>
    by_cases h : p a
    · simp [List.flatMap_cons, List.filter_cons, h, ih]
    · simp [List.flatMap_cons, List.filter_cons, h, ih]

/-- C8 counterexample: a single candidate with the two name variants "Ab" and
"Ab!" (both normalize to "ab"), matched against the single query title "ab",
is recorded twice by the exact scan of check_matches: the break only skips the
remaining query titles for the current name, not the remaining
name variants, refuting the at-most-one-record-per-candidate claim. -/
theorem exact_scan_duplicate_counterexample :
    check_matches_exact [⟨"1", ["Ab", "Ab!"], some 2000⟩] ["ab"] =
      [⟨"1", ["Ab", "Ab!"], some 2000, "exact"⟩,
       ⟨"1", ["Ab", "Ab!"], some 2000, "exact"⟩] := by
  rfl

/-- C8 amended: the break in the exact branch of check_matches stops only the
scan over query titles for the current name variant; every name variant is
still checked, and a candidate is recorded exactly once per name variant whose
normalization equals the normalization of some query title — up to one record per
matching name, not at most one per candidate. -/
theorem exact_scan_once_per_matching_name (bgg_games : List BggGame)
    (finna_titles : List String) :
    check_matches_exact bgg_games finna_titles =
      bgg_games.flatMap (fun g =>
        (g.names.filter (fun n => finna_titles.any (fun t =>
            normalize_title_for_matching n == normalize_title_for_matching t))).map
          (fun _ => ⟨g.bgg_id, g.names, g.year, "exact"⟩)) := by
  unfold check_matches_exact
  simp only [scanTitlesExact_eq, bind_if_singleton]

/-! ## De-duplication by BGG id (src/match_with_bgg.py lines 384-388) -/

/-- Python dict insertion semantics over an association list (the dict built
at lines 385-387): assigning to a present key replaces its value in place,
keeping the original position of the key; a new key is appended at the end. -/
def dictInsert (d : List (String × MatchRec)) (k : String) (v : MatchRec) :
    List (String × MatchRec) :=
  if d.any (fun p => p.1 == k) then d.map (fun p => if p.1 == k then (k, v) else p)
  else d ++ [(k, v)]

/-- De-duplication by BGG id in find_best_bgg_match: fill a dict keyed by
bgg_id from the match list, then take the dict values in order. -/
def dedupByBggId (ms : List MatchRec) : List MatchRec :=
  (ms.foldl (fun d m => dictInsert d m.bgg_id m) []).map (fun p => p.2)

/-- The last element of `ms` carrying key `k`, if any. -/
def lastWithKey (k : String) (ms : List MatchRec) : Option MatchRec :=
  (ms.filter (fun m => m.bgg_id == k)).getLast?

/-- First-position-last-value reading of the de-duplication: keys appear at
the position of their first occurrence, but the record kept for a key is its
last occurrence in the input. -/
def dedupLastWins (seen : List String) : List MatchRec → List MatchRec
  | [] => []
  | m :: rest =>
    if seen.contains m.bgg_id then dedupLastWins seen rest
    else (lastWithKey m.bgg_id rest).getD m :: dedupLastWins (m.bgg_id :: seen) rest

/-- Pair-level version of `dedupLastWins`, carrying the keys. -/
def pairsLastWins (seen : List String) : List MatchRec → List (String × MatchRec)
  | [] => []
  | m :: rest =>
    if seen.contains m.bgg_id then pairsLastWins seen rest
    else (m.bgg_id, (lastWithKey m.bgg_id rest).getD m) :: pairsLastWins (m.bgg_id :: seen) rest

/-- Values of the dict after processing `ms` from an arbitrary dict `d`. -/
def updVals (d : List (String × MatchRec)) (ms : List MatchRec) :
    List (String × MatchRec) :=
  d.map (fun p => (p.1, (lastWithKey p.1 ms).getD p.2))

theorem getLast?_cons_getD {α : Type} (m : α) (l : List α) :
    (m :: l).getLast? = some (l.getLast?.getD m) := by
  induction l generalizing m with
  | nil => rfl
  | cons y t ih =>
    rw [List.getLast?_cons_cons, ih y]
    simp

theorem lastWithKey_cons (k : String) (m : MatchRec) (rest : List MatchRec) :
    lastWithKey k (m :: rest) =
      if m.bgg_id == k then some ((lastWithKey k rest).getD m)
      else lastWithKey k rest := by
  by_cases h : m.bgg_id == k
  · simp only [lastWithKey, List.filter_cons, h, if_pos]
    exact getLast?_cons_getD m _
  · simp only [lastWithKey, List.filter_cons]
    rw [if_neg (by simpa using h), if_neg (by simpa using h)]

theorem pairsLastWins_congr {seen seen' : List String}
    (h : ∀ x, x ∈ seen ↔ x ∈ seen') (l : List MatchRec) :
    pairsLastWins seen l = pairsLastWins seen' l := by
  induction l generalizing seen seen' with
  | nil => rfl
  | cons m rest ih =>
    have hc : seen.contains m.bgg_id = seen'.contains m.bgg_id := by
      by_cases hm : m.bgg_id ∈ seen
      · simp [hm, (h _).mp hm]
      · have hm' : m.bgg_id ∉ seen' := fun hx => hm ((h _).mpr hx)
        simp [hm, hm']
    simp only [pairsLastWins, hc]
    by_cases hm : seen'.contains m.bgg_id
    · simp only [hm, if_pos]
      exact ih h
    · simp only [hm, Bool.false_eq_true, if_false]
      refine congrArg _ (ih ?_)
      intro x
      simp [h x]

theorem pairsLastWins_map_snd (seen : List String) (l : List MatchRec) :
    (pairsLastWins seen l).map (fun p => p.2) = dedupLastWins seen l := by
  induction l generalizing seen with
  | nil => rfl
  | cons m rest ih =>
    by_cases hm : seen.contains m.bgg_id
    · simp only [pairsLastWins, dedupLastWins, hm, if_pos]
      exact ih _
    · simp only [pairsLastWins, dedupLastWins, hm, Bool.false_eq_true, if_false,
        List.map_cons]
      exact congrArg _ (ih _)

theorem foldl_dictInsert_eq (ms : List MatchRec) :
    ∀ d : List (String × MatchRec),
      ms.foldl (fun d m => dictInsert d m.bgg_id m) d =
        updVals d ms ++ pairsLastWins (d.map Prod.fst) ms := by
  induction ms with
  | nil =>
    intro d
    simp [updVals, pairsLastWins, lastWithKey]
  | cons m rest ih =>
    intro d
    rw [List.foldl_cons, ih]
    by_cases hk : d.any (fun p => p.1 == m.bgg_id)
    · have hmem : m.bgg_id ∈ d.map Prod.fst := by
        rcases List.any_eq_true.mp hk with ⟨p, hp, hpk⟩
        exact List.mem_map.mpr ⟨p, hp, (eq_of_beq hpk)⟩
      have hkeys : (dictInsert d m.bgg_id m).map Prod.fst = d.map Prod.fst := by
        simp only [dictInsert, hk, if_pos, List.map_map]
        refine List.map_congr_left ?_
        intro p _
        by_cases hp : p.1 == m.bgg_id
        · simp [Function.comp, hp, eq_of_beq hp]
        · simp [Function.comp, hp]
      have hupd : updVals (dictInsert d m.bgg_id m) rest = updVals d (m :: rest) := by
        simp only [dictInsert, hk, if_pos, updVals, List.map_map]
        refine List.map_congr_left ?_
        intro p _
        by_cases hp : (p.1 == m.bgg_id) = true
        · have hpe : p.1 = m.bgg_id := eq_of_beq hp
          simp only [Function.comp, hp, if_pos]
          rw [hpe, lastWithKey_cons]
          simp
        · simp only [Function.comp, hp, Bool.false_eq_true, if_false]
          rw [lastWithKey_cons]
          have hne : (m.bgg_id == p.1) = false := by
            apply beq_eq_false_iff_ne.mpr
            intro he
            exact hp (beq_iff_eq.mpr he.symm)
          rw [hne]
          simp
      rw [hkeys, hupd]
      have htail : pairsLastWins (d.map Prod.fst) (m :: rest) =
          pairsLastWins (d.map Prod.fst) rest := by
        simp only [pairsLastWins]
        rw [if_pos (by simpa using hmem)]
      rw [htail]
    · have hmem : m.bgg_id ∉ d.map Prod.fst := by
        intro hx
        rcases List.mem_map.mp hx with ⟨p, hp, hpk⟩
        exact hk (List.any_eq_true.mpr ⟨p, hp, beq_iff_eq.mpr hpk⟩)
      have hins : dictInsert d m.bgg_id m = d ++ [(m.bgg_id, m)] := by
        simp only [dictInsert, hk, Bool.false_eq_true, if_false]
      rw [hins]
      have hupd : updVals (d ++ [(m.bgg_id, m)]) rest =
          updVals d rest ++ [(m.bgg_id, (lastWithKey m.bgg_id rest).getD m)] := by
        simp [updVals]
      have hupd2 : updVals d (m :: rest) = updVals d rest := by
        simp only [updVals]
        refine List.map_congr_left ?_
        intro p hp
        have hpne : (m.bgg_id == p.1) = false := by
          apply beq_eq_false_iff_ne.mpr
          intro he
          exact hmem (List.mem_map.mpr ⟨p, hp, he.symm⟩)
        rw [lastWithKey_cons, hpne]
        simp
      have htail : pairsLastWins (d.map Prod.fst) (m :: rest) =
          (m.bgg_id, (lastWithKey m.bgg_id rest).getD m) ::
            pairsLastWins (m.bgg_id :: d.map Prod.fst) rest := by
        simp only [pairsLastWins]
        rw [if_neg (by simpa using hmem)]
      rw [hupd, hupd2, htail]
      have hseen : pairsLastWins ((d ++ [(m.bgg_id, m)]).map Prod.fst) rest =
          pairsLastWins (m.bgg_id :: d.map Prod.fst) rest := by
        refine pairsLastWins_congr ?_ rest
        intro x
        simp [or_comm]
      rw [hseen]
      simp

/-- C5 counterexample: two matches share bgg_id "1"; the dict de-duplication
keeps the record of the second (last) occurrence, not the first, refuting
first-occurrence-wins for the kept value. -/
theorem dedup_last_value_counterexample :
    dedupByBggId [⟨"1", ["X"], some 2005, "exact"⟩, ⟨"1", ["X"], some 1987, "exact"⟩] =
      [⟨"1", ["X"], some 1987, "exact"⟩] ∧
    (⟨"1", ["X"], some 1987, "exact"⟩ : MatchRec) ≠ ⟨"1", ["X"], some 2005, "exact"⟩ := by
  exact ⟨rfl, by decide⟩

/-- C5 amended: de-duplication by target_id keeps each id at the position of
its first occurrence, but the record kept for that id is its last occurrence
in the candidate list (Python dict assignment overwrites the value in place). -/
theorem dedup_first_position_last_value (ms : List MatchRec) :
    dedupByBggId ms = dedupLastWins [] ms := by
  unfold dedupByBggId
  rw [foldl_dictInsert_eq ms []]
  simpa [updVals] using pairsLastWins_map_snd [] ms

/-! ## Similarity Scorer (modelled from the spec, §4.2) -/

/-- Levenshtein edit distance over characters with unit costs, fuelled so the
recursion is structural; the fuel is only consumed on the recurrence case and
`lev` below always supplies enough of it. -/
def levF : Nat → List Char → List Char → Nat
  | _, [], bs => bs.length
  | _, a :: as, [] => (a :: as).length
  | 0, _ :: _, _ :: _ => 0
  | f + 1, a :: as, b :: bs =>
    min (levF f as (b :: bs) + 1)
      (min (levF f (a :: as) bs + 1) (levF f as bs + (if a = b then 0 else 1)))

/-- Levenshtein edit distance over characters, unit costs. -/
def lev (a b : List Char) : Nat :=
  levF (a.length + b.length) a b

theorem levF_self (f : Nat) (a : List Char) (h : a.length + a.length ≤ f) :
    levF f a a = 0 := by
  induction a generalizing f with
  | nil => cases f <;> simp [levF]
  | cons x xs ih =>
    cases f with
    | zero => simp at h
    | succ g =>
      have hg : xs.length + xs.length ≤ g := by
        simp only [List.length_cons] at h
        omega
      simp [levF, ih g hg]

theorem lev_self (a : List Char) : lev a a = 0 :=
  levF_self _ a le_rfl

/-- Modelled from the spec: the character-level edit-distance-based measure of
the Similarity Scorer (§4.2), scaled to 0-100. The scorer itself
(calculate_fuzzy_score / check_fuzzy_matches) is absent from the repository
snapshot — only its call site at src/match_with_bgg.py line 344 and its tests
(tests/test_fuzzy_matching.py) remain — so the measure follows the words of the
spec. -/
def editSim (a b : List Char) : Nat :=
  if max a.length b.length = 0 then 100
  else 100 * (max a.length b.length - lev a b) / max a.length b.length

/-- Lexicographic comparison of words by character code. -/
def wordLe : List Char → List Char → Bool
  | [], _ => true
  | _ :: _, [] => false
  | a :: as, b :: bs => Nat.blt a.toNat b.toNat || (a == b && wordLe as bs)

/-- Insertion step of the word sort. -/
def insertWord (w : List Char) : List (List Char) → List (List Char)
  | [] => [w]
  | x :: xs => if wordLe w x then w :: x :: xs else x :: insertWord w xs

/-- Sort a word list (insertion sort; which sort is irrelevant to the claims,
only that it is a deterministic function of the word multiset). -/
def sortWords : List (List Char) → List (List Char)
  | [] => []
  | w :: ws => insertWord w (sortWords ws)

/-- Modelled from the spec: the token-order-insensitive key — the words of a
normalized string, sorted and re-joined with single spaces. -/
def tokenSortKey (l : List Char) : List Char :=
  joinWords (sortWords (wordsOf l))

/-- Modelled from the spec: calculate_fuzzy_score — normalize both titles with
normalize_title_for_matching (embedded from src), compute the edit-distance
measure and the token-sort measure over the normalized strings, return the
larger. -/
def calculate_fuzzy_score (t1 t2 : String) : Nat :=
  max (editSim (normalize_title_for_matching t1).data (normalize_title_for_matching t2).data)
    (editSim (tokenSortKey (normalize_title_for_matching t1).data)
      (tokenSortKey (normalize_title_for_matching t2).data))

theorem editSim_le_100 (a b : List Char) : editSim a b ≤ 100 := by
  unfold editSim
  by_cases h : max a.length b.length = 0
  · simp [h]
  · rw [if_neg h]
    have h1 : 100 * (max a.length b.length - lev a b) ≤ 100 * max a.length b.length :=
      Nat.mul_le_mul_left _ (Nat.sub_le _ _)
    calc 100 * (max a.length b.length - lev a b) / max a.length b.length
        ≤ 100 * max a.length b.length / max a.length b.length :=
          Nat.div_le_div_right h1
      _ = 100 := Nat.mul_div_cancel 100 (Nat.pos_of_ne_zero h)

theorem editSim_self (a : List Char) : editSim a a = 100 := by
  unfold editSim
  by_cases h : max a.length a.length = 0
  · rw [if_pos h]
  · rw [if_neg h, lev_self, Nat.sub_zero]
    exact Nat.mul_div_cancel 100 (Nat.pos_of_ne_zero h)

/-- C10: the result of the Similarity Scorer always lies in [0, 100] (a natural
number, so 0 is a lower bound by construction, and 100 is proved an upper
bound), and two equal input strings always score exactly 100. -/
theorem scorer_reflexive_and_bounded (t1 t2 : String) :
    calculate_fuzzy_score t1 t2 ≤ 100 ∧
    (t1 = t2 → calculate_fuzzy_score t1 t2 = 100) := by
  constructor
  · exact max_le (editSim_le_100 _ _) (editSim_le_100 _ _)
  · intro h
    subst h
    unfold calculate_fuzzy_score
    simp [editSim_self]

/-- Witness for C10 at the equal inputs "Ra" and "Ra". -/
theorem scorer_reflexive_and_bounded_witness :
    calculate_fuzzy_score ("Ra") ("Ra") = 100 :=
  (scorer_reflexive_and_bounded ("Ra") ("Ra")).2 rfl

/-! ## Substring strategy with fuzzy ranking (modelled from the spec, §4.4) -/

/-- One scanned candidate/name pair of the substring strategy, with its fuzzy
score against the query title. -/
structure SubPair where
  game : BggGame
  name : String
  score : Nat
deriving DecidableEq

/-- Modelled from the spec: the candidate/name pairs scanned by Strategy 2 —
for every query title with more than one word, every candidate/name pair where
the normalized title occurs inside the normalized name, scored with
calculate_fuzzy_score. The implementing function
rank_substring_matches_by_fuzzy_score is absent from the repository snapshot;
only its tests (tests/test_fuzzy_matching.py, tests/test_matching_strategies.py)
and the older unranked substring branch of check_matches remain. -/
def collectSubPairs (games : List BggGame) (titles : List String) : List SubPair :=
  titles.flatMap (fun t =>
    if decide (1 < (wordsOf t.data).length) then
      games.flatMap (fun g => g.names.filterMap (fun n =>
        if occursIn (normalize_title_for_matching t).data
            (normalize_title_for_matching n).data then
          some ⟨g, n, calculate_fuzzy_score t n⟩
        else none))
    else [])

/-- Modelled from the spec: fold keeping the highest-scoring pair, ties broken
by first-found (only a strictly greater score replaces the current best). -/
def bestPair : List SubPair → Option SubPair
  | [] => none
  | p :: ps => some (ps.foldl (fun b q => if b.score < q.score then q else b) p)

/-- Modelled from the spec: rank_substring_matches_by_fuzzy_score — at most
one substring result, the candidate of the best-scoring scanned pair tagged
"substring". -/
def rank_substring_matches_by_fuzzy_score (games : List BggGame)
    (titles : List String) : List MatchRec :=
  match bestPair (collectSubPairs games titles) with
  | none => []
  | some p => [⟨p.game.bgg_id, p.game.names, p.game.year, "substring"⟩]

theorem foldl_best_mem (p : SubPair) (ps : List SubPair) :
    ps.foldl (fun b q => if b.score < q.score then q else b) p ∈ p :: ps := by
  induction ps generalizing p with
  | nil => simp
  | cons q qs ih =>
    rw [List.foldl_cons]
    by_cases h : p.score < q.score
    · rw [if_pos h]
      rcases List.mem_cons.mp (ih q) with h1 | h2
      · rw [h1]
        exact List.mem_cons.mpr (Or.inr (List.mem_cons_self q qs))
      · exact List.mem_cons.mpr (Or.inr (List.mem_cons.mpr (Or.inr h2)))
    · rw [if_neg h]
      rcases List.mem_cons.mp (ih p) with h1 | h2
      · rw [h1]
        exact List.mem_cons_self p (q :: qs)
      · exact List.mem_cons.mpr (Or.inr (List.mem_cons.mpr (Or.inr h2)))

theorem foldl_best_ge (p : SubPair) (ps : List SubPair) :
    ∀ r ∈ p :: ps,
      r.score ≤ (ps.foldl (fun b q => if b.score < q.score then q else b) p).score := by
  induction ps generalizing p with
  | nil =>
    intro r hr
    rcases List.mem_cons.mp hr with h | h
    · rw [h]; simp [List.foldl_nil]
    · simp at h
  | cons q qs ih =>
    intro r hr
    simp only [List.foldl_cons]
    have hstep : p.score ≤ (if p.score < q.score then q else p).score ∧
        q.score ≤ (if p.score < q.score then q else p).score := by
      by_cases h : p.score < q.score
      · rw [if_pos h]; omega
      · rw [if_neg h]; omega
    have hb := ih (if p.score < q.score then q else p)
    rcases List.mem_cons.mp hr with h1 | h2
    · subst h1
      exact le_trans hstep.1 (hb _ (List.mem_cons_self _ _))
    · rcases List.mem_cons.mp h2 with h3 | h4
      · subst h3
        exact le_trans hstep.2 (hb _ (List.mem_cons_self _ _))
      · exact hb r (List.mem_cons.mpr (Or.inr h4))

/-- C4: the fuzzy-ranked substring strategy returns at most one result, and
the pair it keeps is one of the scanned candidate/name pairs and carries a
score no smaller than the score of every scanned pair (first-found wins ties).
spec-modelled. -/
theorem substring_strategy_at_most_one (games : List BggGame)
    (titles : List String) :
    (rank_substring_matches_by_fuzzy_score games titles).length ≤ 1 ∧
    (∀ p, bestPair (collectSubPairs games titles) = some p →
      p ∈ collectSubPairs games titles ∧
        ∀ q ∈ collectSubPairs games titles, q.score ≤ p.score) := by
  constructor
  · unfold rank_substring_matches_by_fuzzy_score
    cases bestPair (collectSubPairs games titles) <;> simp
  · intro p hp
    cases hcol : collectSubPairs games titles with
    | nil => rw [hcol] at hp; cases hp
    | cons x xs =>
      rw [hcol] at hp
      unfold bestPair at hp
      have hpe := Option.some.inj hp
      constructor
      · rw [← hpe]
        exact foldl_best_mem x xs
      · intro q hq
        rw [← hpe]
        exact foldl_best_ge x xs q hq

/-- Witness for C4 at a concrete two-word query and single candidate: the best
pair is the scanned pair itself, with score 60, and it dominates every
scanned pair. -/
theorem substring_strategy_at_most_one_witness :
    (⟨⟨"1", ["a b c"], none⟩, "a b c", 60⟩ : SubPair) ∈
        collectSubPairs [⟨"1", ["a b c"], none⟩] ["a b"] ∧
      ∀ q ∈ collectSubPairs [⟨"1", ["a b c"], none⟩] ["a b"], q.score ≤ 60 := by
  have h := (substring_strategy_at_most_one [⟨"1", ["a b c"], none⟩] ["a b"]).2
    ⟨⟨"1", ["a b c"], none⟩, "a b c", 60⟩ (by decide)
  exact h

/-! ## The title-search retry loop (src/match_with_bgg.py lines 207-230) -/

/-- The yearpublished data of one parsed item, before the int() conversion at
line 59: the element may be absent (no conversion runs), carry an attribute
value that parses as an integer, or carry a missing or non-integer attribute
value, on which int() raises ValueError or TypeError. -/
inductive YearField
  | absent
  | intVal (y : Int)
  | badVal
deriving DecidableEq

/-- One raw item of a parsed BGG search response, before the boardgame filter
and before the year conversion. -/
structure RawItem where
  bgg_id : String
  itemType : String
  names : List String
  year : YearField
deriving DecidableEq

/-- The exceptions the body of search_bgg_by_title can raise: the request
machinery raises RequestException (caught at line 225), and the int() at line
59 raises ValueError or TypeError, which neither the ET.ParseError-only
except of the parser (line 65) nor the RequestException-only except of the
loop catches. -/
inductive SearchExc
  | requestExc
  | valueExc
deriving DecidableEq

/-- The int() conversion of a yearpublished value (line 59): no element means
no year; a well-formed value converts; a missing or non-integer attribute
value raises. -/
def parseYear : YearField → Except SearchExc (Option Int)
  | .absent => .ok none
  | .intVal y => .ok (some y)
  | .badVal => .error .valueExc

/-- The item loop of parse_bgg_search_response (lines 44-62): every item is
built — the year conversion runs before the boardgame filter at line 61 — so
a bad year value raises out of the loop even on a non-boardgame item;
otherwise the boardgame items are kept. -/
def parseItems : List RawItem → Except SearchExc (List BggGame)
  | [] => .ok []
  | it :: rest =>
    match parseYear it.year with
    | .error e => .error e
    | .ok y =>
      match parseItems rest with
      | .error e => .error e
      | .ok gs =>
        .ok (if it.itemType == "boardgame" then ⟨it.bgg_id, it.names, y⟩ :: gs else gs)

/-- Embedding of parse_bgg_search_response (lines 38-67): `none` models an
unparseable payload, whose ET.ParseError the except at line 65 catches and
turns into an empty list; a parsed payload runs the item loop, whose int()
errors that same except does not catch. -/
def parse_bgg_search_response (doc : Option (List RawItem)) :
    Except SearchExc (List BggGame) :=
  match doc with
  | none => .ok []
  | some items => parseItems items

/-- Outcome of one attempt of the request inside search_bgg_by_title: the
request machinery raised RequestException (exn), the provider answered
202/still-processing (processing), or a payload came back (payload, with
`none` an unparseable body). -/
inductive BggAttempt
  | exn
  | processing
  | payload (doc : Option (List RawItem))
deriving DecidableEq

/-- Every item of a parsed payload carries a year value int() can handle. -/
def yearsWellFormed (doc : Option (List RawItem)) : Bool :=
  match doc with
  | none => true
  | some items => items.all (fun it => it.year != YearField.badVal)

/-- Embedding of the retry loop of search_bgg_by_title (lines 211-230) over
successive attempt outcomes: a RequestException is caught, logged, and the
next attempt begins (this clause would also catch a RequestException raised
while parsing, kept here for fidelity although the parser never raises one);
a 202 sleeps and continues; a payload is parsed and returned, and an int()
error raised by the parse escapes the RequestException-only except to the
caller. Falling off the loop returns the empty list (line 230). -/
def searchLoop : List BggAttempt → Except SearchExc (List BggGame)
  | [] => .ok []
  | .exn :: rest => searchLoop rest
  | .processing :: rest => searchLoop rest
  | .payload doc :: rest =>
    match parse_bgg_search_response doc with
    | .ok gs => .ok gs
    | .error .requestExc => searchLoop rest
    | .error .valueExc => .error .valueExc

/-- search_bgg_by_title with max_retries = 3 (the default): the loop consumes
at most three attempt outcomes of the environment. -/
def search_bgg_by_title (env : Nat → BggAttempt) : Except SearchExc (List BggGame) :=
  searchLoop ((List.range 3).map env)

theorem parseItems_ok {items : List RawItem}
    (h : ∀ it ∈ items, it.year ≠ YearField.badVal) :
    ∃ gs, parseItems items = .ok gs := by
  induction items with
  | nil => exact ⟨[], rfl⟩
  | cons it rest ih =>
    obtain ⟨gs, hgs⟩ := ih (fun x hx => h x (List.mem_cons_of_mem _ hx))
    cases hy : it.year with
    | absent =>
      refine ⟨if it.itemType == "boardgame" then ⟨it.bgg_id, it.names, none⟩ :: gs
        else gs, ?_⟩
      simp only [parseItems, hy, parseYear, hgs]
    | intVal y =>
      refine ⟨if it.itemType == "boardgame" then ⟨it.bgg_id, it.names, some y⟩ :: gs
        else gs, ?_⟩
      simp only [parseItems, hy, parseYear, hgs]
    | badVal => exact absurd hy (h it (List.mem_cons_self _ _))

theorem parseItems_error {items : List RawItem} {e : SearchExc}
    (h : parseItems items = .error e) : e = .valueExc := by
  induction items with
  | nil => cases h
  | cons it rest ih =>
    simp only [parseItems] at h
    cases hy : it.year with
    | badVal =>
      rw [hy] at h
      simp only [parseYear] at h
      cases h
      rfl
    | absent =>
      rw [hy] at h
      simp only [parseYear] at h
      cases hr : parseItems rest with
      | error e' =>
        rw [hr] at h
        cases h
        exact ih hr
      | ok gs =>
        rw [hr] at h
        cases h
    | intVal y =>
      rw [hy] at h
      simp only [parseYear] at h
      cases hr : parseItems rest with
      | error e' =>
        rw [hr] at h
        cases h
        exact ih hr
      | ok gs =>
        rw [hr] at h
        cases h

theorem parse_ok_of_wellformed {doc : Option (List RawItem)}
    (h : yearsWellFormed doc = true) :
    ∃ gs, parse_bgg_search_response doc = .ok gs := by
  cases doc with
  | none => exact ⟨[], rfl⟩
  | some items =>
    refine parseItems_ok ?_
    intro it hit
    have := (List.all_eq_true.mp h) it hit
    simpa using this

theorem searchLoop_ok (l : List BggAttempt)
    (h : ∀ doc, BggAttempt.payload doc ∈ l → yearsWellFormed doc = true) :
    ∃ gs, searchLoop l = .ok gs := by
  induction l with
  | nil => exact ⟨[], rfl⟩
  | cons a rest ih =>
    have hrest := ih (fun doc hd => h doc (List.mem_cons_of_mem _ hd))
    cases a with
    | exn => simpa [searchLoop] using hrest
    | processing => simpa [searchLoop] using hrest
    | payload doc =>
      obtain ⟨gs, hgs⟩ := parse_ok_of_wellformed (h doc (List.mem_cons_self _ _))
      exact ⟨gs, by simp only [searchLoop, hgs]⟩

theorem searchLoop_exhausted (l : List BggAttempt)
    (h : ∀ a ∈ l, a = .exn ∨ a = .processing) : searchLoop l = .ok [] := by
  induction l with
  | nil => rfl
  | cons a rest ih =>
    rcases h a (List.mem_cons_self _ _) with ha | ha <;> subst ha <;>
      exact ih (fun x hx => h x (List.mem_cons_of_mem _ hx))

theorem searchLoop_error {l : List BggAttempt} {e : SearchExc}
    (h : searchLoop l = .error e) : e = .valueExc := by
  induction l with
  | nil => cases h
  | cons a rest ih =>
    cases a with
    | exn => exact ih h
    | processing => exact ih h
    | payload doc =>
      simp only [searchLoop] at h
      cases hp : parse_bgg_search_response doc with
      | ok gs =>
        rw [hp] at h
        cases h
      | error e' =>
        cases e' with
        | requestExc =>
          rw [hp] at h
          exact ih h
        | valueExc =>
          rw [hp] at h
          cases h
          rfl

/-- C6 counterexample: a provider payload that parses as XML and contains one
boardgame item whose yearpublished attribute value is missing or not an
integer makes the int() at line 59 raise; the ValueError/TypeError passes the
ET.ParseError-only except of the parser and the RequestException-only except
of the retry loop, and search_bgg_by_title raises it to its caller on the
first attempt — refuting never-raises. -/
theorem search_by_title_bad_year_raises_counterexample :
    search_bgg_by_title
        (fun _ => BggAttempt.payload
          (some [⟨"1", "boardgame", ["X"], YearField.badVal⟩])) =
      .error SearchExc.valueExc := rfl

/-- C6 amended: when every attempt within the retry budget is a
transport-level failure or a still-processing signal, search_bgg_by_title
returns the empty list — those failures never escape, they are only logged;
when every payload the provider returns carries well-formed year values the
function raises nothing at all; and the only exception it can ever raise to
its caller is the ValueError/TypeError of the int() year conversion at line
59, which both except clauses miss. -/
theorem search_by_title_empty_on_exhaustion_raise_only_bad_year
    (env : Nat → BggAttempt) :
    ((∀ i, i < 3 → env i = .exn ∨ env i = .processing) →
      search_bgg_by_title env = .ok []) ∧
    ((∀ i, i < 3 → ∀ doc, env i = .payload doc → yearsWellFormed doc = true) →
      ∃ gs, search_bgg_by_title env = .ok gs) ∧
    (∀ e, search_bgg_by_title env = .error e → e = SearchExc.valueExc) := by
  refine ⟨?_, ?_, ?_⟩
  · intro h
    apply searchLoop_exhausted
    intro a ha
    rw [show (List.range 3).map env = [env 0, env 1, env 2] from rfl] at ha
    simp only [List.mem_cons, List.not_mem_nil, or_false] at ha
    rcases ha with ha | ha | ha
    · rw [ha]; exact h 0 (by omega)
    · rw [ha]; exact h 1 (by omega)
    · rw [ha]; exact h 2 (by omega)
  · intro h
    apply searchLoop_ok
    intro doc hd
    rw [show (List.range 3).map env = [env 0, env 1, env 2] from rfl] at hd
    simp only [List.mem_cons, List.not_mem_nil, or_false] at hd
    rcases hd with hd | hd | hd
    · exact h 0 (by omega) doc hd.symm
    · exact h 1 (by omega) doc hd.symm
    · exact h 2 (by omega) doc hd.symm
  · intro e he
    exact searchLoop_error he

/-- Witness for the amended C6 at the environment whose every attempt raises
RequestException: the call returns the empty list, raising nothing. -/
theorem search_by_title_empty_on_exhaustion_raise_only_bad_year_witness :
    search_bgg_by_title (fun _ => BggAttempt.exn) = .ok [] ∧
    ∃ gs, search_bgg_by_title (fun _ => BggAttempt.exn) = .ok gs := by
  have h := search_by_title_empty_on_exhaustion_raise_only_bad_year
    (fun _ => BggAttempt.exn)
  exact ⟨h.1 (fun _ _ => Or.inl rfl),
    h.2.1 (fun i _ doc hd => BggAttempt.noConfusion hd)⟩

/-! ## The Match Strategy Chain (src/match_with_bgg.py, find_best_bgg_match) -/

/-- Detail-provider record (parse_bgg_thing_response), restricted to the
fields the author strategies read. -/
structure GameDetails where
  all_names : List String
  year : Option Int
  designers : List String
deriving DecidableEq

/-- The external collaborators consulted by find_best_bgg_match, as oracles:
title search, author search, detail fetch, and check_fuzzy_matches — the last
is called at line 344 but defined nowhere in the module, so the chain is
parameterized over it. -/
structure Oracles where
  searchByTitle : String → List BggGame
  searchByAuthor : String → List String
  getDetails : String → Option GameDetails
  checkFuzzy : List BggGame → List String → Nat → List MatchRec

/-- Python str.lower, character-wise. -/
def pyLower (s : String) : String :=
  String.mk (s.data.map Char.toLower)

/-- Strategy 1 (lines 294-303): for every non-empty query title, search by
title and accumulate the exact check_matches hits against all titles. -/
def strategy1 (o : Oracles) (titles : List String) : List MatchRec :=
  titles.flatMap (fun t =>
    if t = "" then [] else check_matches_exact (o.searchByTitle t) titles)

/-- Strategy 2 (lines 305-317): for every multi-word query title, search by
title and accumulate the substring check_matches hits. -/
def strategy2 (o : Oracles) (titles : List String) : List MatchRec :=
  titles.flatMap (fun t =>
    if t = "" ∨ (wordsOf t.data).length ≤ 1 then []
    else check_matches_sub (o.searchByTitle t) titles)

/-- The author_games construction of Strategy 3 (lines 328-341): fetch
details per id and keep candidates whose designer list contains the author,
case-insensitively as a substring (line 334). -/
def buildAuthorGames (o : Oracles) (author : String) (ids : List String) :
    List BggGame :=
  ids.filterMap (fun gid =>
    match o.getDetails gid with
    | none => none
    | some d =>
      if d.designers.any (fun des =>
          occursIn (pyLower author).data (pyLower des).data) then
        some ⟨gid, d.all_names, d.year⟩
      else none)

/-- Strategy 3 author loop (lines 323-349): up to the first two authors; an
author with search results gets the designer cross-check and the fuzzy
scorer at threshold 75; the loop breaks only when the fuzzy result is
non-empty, tagging the hits author_fuzzy_title. -/
def strategy3Loop (o : Oracles) (titles : List String) : List String → List MatchRec
  | [] => []
  | a :: rest =>
    if (o.searchByAuthor a).isEmpty then strategy3Loop o titles rest
    else
      let fz := o.checkFuzzy (buildAuthorGames o a (o.searchByAuthor a)) titles 75
      if fz.isEmpty then strategy3Loop o titles rest
      else fz.map (fun m => { m with match_type := "author_fuzzy_title" })

/-- The inner id loop of Strategy 4 (lines 360-375): the first id whose
details carry a year equal to the year of the record and whose designer list
contains the author; the break at line 375 stops at that first hit. -/
def firstYearMatch (o : Oracles) (author : String) (fy : Int) :
    List String → Option MatchRec
  | [] => none
  | gid :: rest =>
    match o.getDetails gid with
    | none => firstYearMatch o author fy rest
    | some d =>
      match d.year with
      | none => firstYearMatch o author fy rest
      | some y =>
        if y = fy ∧ d.designers.any (fun des =>
            occursIn (pyLower author).data (pyLower des).data) then
          some ⟨gid, d.all_names, some y, "author_year"⟩
        else firstYearMatch o author fy rest

/-- Strategy 4 author loop (lines 355-378): up to the first two authors; the
first qualifying candidate for an author ends the whole search (line 377). -/
def strategy4Loop (o : Oracles) (fy : Int) : List String → List MatchRec
  | [] => []
  | a :: rest =>
    if (o.searchByAuthor a).isEmpty then strategy4Loop o fy rest
    else
      match firstYearMatch o a fy (o.searchByAuthor a) with
      | some m => [m]
      | none => strategy4Loop o fy rest

/-- Truthiness of the parsed record year in the guard of Strategy 4
(line 352): None is falsy, an int is truthy iff non-zero. -/
def yearTruthy : Option Int → Bool
  | none => false
  | some y => y != 0

inductive StratKind
  | exactS
  | substringS
  | authorFuzzyS
  | authorYearS
deriving DecidableEq

/-- Outcome of the strategy-chain portion of find_best_bgg_match: the
accumulated all_matches list and the trace of the strategy blocks whose
bodies executed. -/
structure ChainOut where
  allMatches : List MatchRec
  trace : List StratKind
deriving DecidableEq

/-- The strategy chain of find_best_bgg_match (lines 292-378): Strategy 1
always runs; Strategy 2 runs when all_matches is still empty (line 306);
Strategy 3 additionally requires a non-empty author list (line 320);
Strategy 4 requires a non-empty author list and a truthy year (line 352).
Each executed strategy block extends all_matches with its results. -/
def runChain (o : Oracles) (titles authors : List String) (fy : Option Int) :
    ChainOut :=
  let all1 := strategy1 o titles
  let st1 := ([StratKind.exactS], all1)
  let st2 :=
    if all1.isEmpty then
      (st1.1 ++ [StratKind.substringS], all1 ++ strategy2 o titles)
    else st1
  let st3 :=
    if st2.2.isEmpty && !authors.isEmpty then
      (st2.1 ++ [StratKind.authorFuzzyS],
        st2.2 ++ strategy3Loop o titles (authors.take 2))
    else st2
  let st4 :=
    if st3.2.isEmpty && !authors.isEmpty && yearTruthy fy then
      (st3.1 ++ [StratKind.authorYearS],
        st3.2 ++ strategy4Loop o (fy.getD 0) (authors.take 2))
    else st3
  ⟨st4.2, st4.1⟩

theorem isEmpty_false_of_ne_nil {α : Type} {l : List α} (h : l ≠ []) :
    l.isEmpty = false := by
  cases l with
  | nil => cases h rfl
  | cons a t => rfl

/-- C2: the strategies run in the fixed order exact, substring,
author_fuzzy_title, author_year; each later strategy block executes only
while the accumulated match list is still empty, so as soon as one strategy
yields at least one candidate no later strategy executes and the final match
list is exactly the result of the yielding strategy. The last conjunct states
merge-freedom unconditionally: the output always equals the output of a single
strategy or is empty. -/
theorem strategy_chain_short_circuits (o : Oracles) (titles authors : List String)
    (fy : Option Int) :
    (strategy1 o titles ≠ [] →
      runChain o titles authors fy = ⟨strategy1 o titles, [StratKind.exactS]⟩) ∧
    (strategy1 o titles = [] → strategy2 o titles ≠ [] →
      runChain o titles authors fy =
        ⟨strategy2 o titles, [StratKind.exactS, StratKind.substringS]⟩) ∧
    (strategy1 o titles = [] → strategy2 o titles = [] → authors ≠ [] →
      strategy3Loop o titles (authors.take 2) ≠ [] →
      runChain o titles authors fy =
        ⟨strategy3Loop o titles (authors.take 2),
          [StratKind.exactS, StratKind.substringS, StratKind.authorFuzzyS]⟩) ∧
    (strategy1 o titles = [] → strategy2 o titles = [] → authors ≠ [] →
      strategy3Loop o titles (authors.take 2) = [] → yearTruthy fy = true →
      runChain o titles authors fy =
        ⟨strategy4Loop o (fy.getD 0) (authors.take 2),
          [StratKind.exactS, StratKind.substringS, StratKind.authorFuzzyS,
            StratKind.authorYearS]⟩) ∧
    ((runChain o titles authors fy).allMatches = [] ∨
      (runChain o titles authors fy).allMatches = strategy1 o titles ∨
      (runChain o titles authors fy).allMatches = strategy2 o titles ∨
      (runChain o titles authors fy).allMatches = strategy3Loop o titles (authors.take 2) ∨
      (runChain o titles authors fy).allMatches =
        strategy4Loop o (fy.getD 0) (authors.take 2)) := by
  refine ⟨?_, ?_, ?_, ?_, ?_⟩
  · intro h1
    simp [runChain, isEmpty_false_of_ne_nil h1]
  · intro h1 h2
    simp [runChain, h1, isEmpty_false_of_ne_nil h2]
  · intro h1 h2 ha h3
    simp [runChain, h1, h2, isEmpty_false_of_ne_nil ha,
      isEmpty_false_of_ne_nil h3]
  · intro h1 h2 ha h3 hy
    simp [runChain, h1, h2, h3, isEmpty_false_of_ne_nil ha, hy]
  · by_cases h1 : strategy1 o titles = []
    · by_cases h2 : strategy2 o titles = []
      · by_cases ha : authors = []
        · left
          simp [runChain, h1, h2, ha]
        · by_cases h3 : strategy3Loop o titles (authors.take 2) = []
          · by_cases hy : yearTruthy fy = true
            · right; right; right; right
              simp [runChain, h1, h2, h3, isEmpty_false_of_ne_nil ha, hy]
            · right; right; right; left
              simp [runChain, h1, h2, h3, isEmpty_false_of_ne_nil ha,
                Bool.eq_false_iff.mpr hy]
          · right; right; right; left
            simp [runChain, h1, h2, isEmpty_false_of_ne_nil ha,
              isEmpty_false_of_ne_nil h3]
      · right; right; left
        simp [runChain, h1, isEmpty_false_of_ne_nil h2]
    · right; left
      simp [runChain, isEmpty_false_of_ne_nil h1]

/-- Witness for C2: a concrete oracle under which Strategy 1 yields one exact
hit, so the chain stops after Strategy 1 with exactly that hit. -/
theorem strategy_chain_short_circuits_witness :
    runChain
        ⟨fun t => if t = "ab" then [⟨"7", ["ab"], some 2000⟩] else [],
          fun _ => [], fun _ => none, fun _ _ _ => []⟩
        ["ab"] [] none =
      ⟨[⟨"7", ["ab"], some 2000, "exact"⟩], [StratKind.exactS]⟩ := by
  have h := (strategy_chain_short_circuits
    ⟨fun t => if t = "ab" then [⟨"7", ["ab"], some 2000⟩] else [],
      fun _ => [], fun _ => none, fun _ _ _ => []⟩
    ["ab"] [] none).1 (by decide)
  rw [h]
  decide

/-! ## extract_authors_from_finna and the CSV-driven flow (lines 1-36, 286-290) -/

/-- Python exceptions as far as the boundary of the authors extractor needs them. -/
inductive PyExc
  | nameError (n : String)
  | otherError
deriving DecidableEq

/-- The names bound at module top level by the import statements of
src/match_with_bgg.py (lines 3-11): import requests, csv,
xml.etree.ElementTree as ET, time, sys, os, re, string, and
from urllib.parse import quote. The name json is not among them. -/
def moduleImports : List String :=
  ["requests", "csv", "ET", "time", "sys", "os", "re", "string", "quote"]

/-- Name resolution at module scope: referencing an unbound name raises
NameError. -/
def resolveName (env : List String) (n : String) : Except PyExc Unit :=
  if env.contains n then .ok () else .error (.nameError n)

/-- Embedding of extract_authors_from_finna (src/match_with_bgg.py lines
13-36) for string-valued input — the form every field has after
csv.DictReader. The falsy check returns [] for the empty string; otherwise
the try block first evaluates `json.loads`, whose first step resolves the
name json in module scope; `parseRest` abstracts the remainder of the try
block (the actual json parsing and primary-author extraction), which only
runs if that resolution succeeds. The bare except at line 35 converts every
raised exception into [], so the function always returns a value and never
raises. -/
def extract_authors_from_finna (env : List String)
    (parseRest : String → Except PyExc (List String)) (s : String) : List String :=
  if s = "" then []
  else
    match resolveName env ("json") with
    | .error _ => []
    | .ok _ =>
      match parseRest s with
      | .ok v => v
      | .error _ => []

/-- C7: on every string-valued authors field the extractor returns the empty
list and never raises — the name json does not resolve under the imports of the
module (first conjunct: the NameError the source swallows), whatever the
rest of the try block would compute — and with that empty author list the
Strategy 3 and Strategy 4 blocks of the chain never execute in the CSV-driven
main flow. -/
theorem authors_always_empty_in_csv_flow
    (parseRest : String → Except PyExc (List String)) (s : String)
    (o : Oracles) (titles : List String) (fy : Option Int) :
    resolveName moduleImports ("json") = .error (.nameError ("json")) ∧
    extract_authors_from_finna moduleImports parseRest s = [] ∧
    ((runChain o titles (extract_authors_from_finna moduleImports parseRest s)
        fy).trace.contains StratKind.authorFuzzyS) = false ∧
    ((runChain o titles (extract_authors_from_finna moduleImports parseRest s)
        fy).trace.contains StratKind.authorYearS) = false := by
  have hext : extract_authors_from_finna moduleImports parseRest s = [] := by
    unfold extract_authors_from_finna
    by_cases hs : s = ""
    · rw [if_pos hs]
    · rw [if_neg hs]
      rfl
  refine ⟨rfl, hext, ?_, ?_⟩
  · rw [hext]
    by_cases h1 : strategy1 o titles = []
    · simp [runChain, h1]
    · simp [runChain, isEmpty_false_of_ne_nil h1]
  · rw [hext]
    by_cases h1 : strategy1 o titles = []
    · simp [runChain, h1]
    · simp [runChain, isEmpty_false_of_ne_nil h1]

/-! ## Incremental Run Controller (src/bggfinna.py lines 61-117; driving loop
modelled from the spec) -/

/-- Python str.strip: whitespace removed from both ends. -/
def pyStrip (s : String) : String :=
  String.mk (((s.data.dropWhile isPySpace).reverse.dropWhile isPySpace).reverse)

/-- One input record of the controller, as far as its bookkeeping reads it. -/
structure SrcRecord where
  src_id : String
  title : String
deriving DecidableEq

/-- One persisted relation row: the source id of the record plus the resolved
target id and match kind. -/
structure StoreRow where
  src_id : String
  target_id : String
  match_kind : String
deriving DecidableEq

/-- Embedding of get_processed_ids (src/bggfinna.py lines 61-88) at the row
level — the store is modelled as its list of parsed data rows; the header and
the byte-level concerns live in truncate_incomplete_output above. Collect the
non-empty stripped ids. -/
def get_processed_ids (rows : List StoreRow) : List String :=
  rows.filterMap (fun r =>
    if pyStrip r.src_id = "" then none else some (pyStrip r.src_id))

/-- Embedding of get_unprocessed_items (src/bggfinna.py lines 91-117) at the
row level: keep the input items whose stripped id is non-empty and not among
the processed ids. The truncate_incomplete_output call at line 105 is the
identity at the row level, every modelled row being complete. -/
def get_unprocessed_items (input : List SrcRecord) (rows : List StoreRow) :
    List SrcRecord :=
  input.filter (fun it =>
    (pyStrip it.src_id != "") &&
      !(get_processed_ids rows).contains (pyStrip it.src_id))

/-- Modelled from the spec: runMatching, the Run Controller loop (§4.6, §6).
The final id-keyed main of match_with_bgg.py that the spec describes — the
controller whose strategy helpers the tests of the repository import and which the
pipeline runs to produce finna_bgg_relations.csv — is absent from the
repository snapshot; what remains in src/ are its helper get_unprocessed_items
(embedded above from src/bggfinna.py) and sibling callers such as
fetch_finna_availability.py. Per the spec: compute the unprocessed set with
get_unprocessed_items, then, in input order, resolve each record (`resolve`
abstracts the Match Strategy Chain plus Disambiguator, giving the target id
and match kind) and append one MatchResult row keyed by the own source id of the
record. -/
def runMatching (resolve : SrcRecord → String × String) (input : List SrcRecord)
    (store : List StoreRow) : List StoreRow :=
  store ++ (get_unprocessed_items input store).map
    (fun it => ⟨it.src_id, (resolve it).1, (resolve it).2⟩)

/-- Number of rows of a store whose stripped source id is `i`. -/
def countRows (rows : List StoreRow) (i : String) : Nat :=
  (rows.filter (fun r => pyStrip r.src_id == i)).length

theorem mem_processed_of_row {rows : List StoreRow} {r : StoreRow}
    (hr : r ∈ rows) (hne : pyStrip r.src_id ≠ "") :
    pyStrip r.src_id ∈ get_processed_ids rows := by
  unfold get_processed_ids
  exact List.mem_filterMap.mpr ⟨r, hr, by rw [if_neg hne]⟩

theorem unprocessed_after_run (resolve : SrcRecord → String × String)
    (input : List SrcRecord) (store : List StoreRow) :
    get_unprocessed_items input (runMatching resolve input store) = [] := by
  unfold get_unprocessed_items
  rw [List.filter_eq_nil_iff]
  intro it hit
  by_cases hs : pyStrip it.src_id = ""
  · simp [hs]
  · by_cases hproc : pyStrip it.src_id ∈ get_processed_ids store
    · have : pyStrip it.src_id ∈ get_processed_ids (runMatching resolve input store) := by
        unfold runMatching get_processed_ids
        rw [List.filterMap_append]
        exact List.mem_append.mpr (Or.inl hproc)
      simp [this]
    · have hunp : it ∈ get_unprocessed_items input store := by
        unfold get_unprocessed_items
        refine List.mem_filter.mpr ⟨hit, ?_⟩
        simp [hs, hproc]
      have hrow : (⟨it.src_id, (resolve it).1, (resolve it).2⟩ : StoreRow) ∈
          runMatching resolve input store := by
        unfold runMatching
        exact List.mem_append.mpr (Or.inr (List.mem_map.mpr ⟨it, hunp, rfl⟩))
      have : pyStrip it.src_id ∈ get_processed_ids (runMatching resolve input store) :=
        mem_processed_of_row hrow hs
      simp [this]

theorem nodup_filter_count_le_one {l : List SrcRecord} {i : String}
    (h : (l.map (fun it => pyStrip it.src_id)).Nodup) :
    (l.filter (fun it => pyStrip it.src_id == i)).length ≤ 1 := by
  induction l with
  | nil => simp
  | cons it rest ih =>
    rw [List.map_cons, List.nodup_cons] at h
    rw [List.filter_cons]
    by_cases hit : (pyStrip it.src_id == i) = true
    · rw [if_pos hit]
      have hrest : rest.filter (fun x => pyStrip x.src_id == i) = [] := by
        rw [List.filter_eq_nil_iff]
        intro x hx hxi
        apply h.1
        exact List.mem_map.mpr ⟨x, hx, by rw [eq_of_beq hxi, eq_of_beq hit]⟩
      rw [hrest]
      simp
    · rw [if_neg hit]
      exact ih h.2

/-- C1: the Run Controller over the id-keyed store. Second-run emptiness and
store stability hold for every input and prior store; and for every id, one
run leaves at most max(previous count, 1) rows with that id — so from ids
absent in the store at most one row is ever produced across all runs, and
ids already present gain no rows — provided the stripped source ids of the input
batch are pairwise distinct (the data model declares source_id unique).
spec-modelled (see runMatching). -/
theorem run_controller_idempotent_per_id (resolve : SrcRecord → String × String)
    (input : List SrcRecord) (store : List StoreRow)
    (hnodup : (input.map (fun it => pyStrip it.src_id)).Nodup) :
    get_unprocessed_items input (runMatching resolve input store) = [] ∧
    runMatching resolve input (runMatching resolve input store) =
      runMatching resolve input store ∧
    (∀ i, countRows (runMatching resolve input store) i ≤
      max (countRows store i) 1) := by
  refine ⟨unprocessed_after_run resolve input store, ?_, ?_⟩
  · conv_lhs => rw [runMatching]
    rw [unprocessed_after_run resolve input store]
    simp
  · intro i
    have hsplit : countRows (runMatching resolve input store) i =
        countRows store i +
          (((get_unprocessed_items input store).map
              (fun it => (⟨it.src_id, (resolve it).1, (resolve it).2⟩ : StoreRow))).filter
            (fun r => pyStrip r.src_id == i)).length := by
      unfold runMatching countRows
      rw [List.filter_append, List.length_append]
    rw [hsplit]
    by_cases hproc : i ∈ get_processed_ids store
    · have hzero : (((get_unprocessed_items input store).map
          (fun it => (⟨it.src_id, (resolve it).1, (resolve it).2⟩ : StoreRow))).filter
            (fun r => pyStrip r.src_id == i)).length = 0 := by
        rw [List.length_eq_zero, List.filter_eq_nil_iff]
        intro r hr hri
        rcases List.mem_map.mp hr with ⟨it, hitmem, hmk⟩
        rcases List.mem_filter.mp hitmem with ⟨_, hcond⟩
        have hstrip : pyStrip r.src_id = pyStrip it.src_id := by rw [← hmk]
        rw [hstrip] at hri
        simp only [Bool.and_eq_true, Bool.not_eq_true'] at hcond
        have hnotin : pyStrip it.src_id ∉ get_processed_ids store := by
          simpa using hcond.2
        exact hnotin (by rw [eq_of_beq hri]; exact hproc)
      rw [hzero, Nat.add_zero]
      exact le_max_left _ _
    · by_cases hi : i = ""
      · have hzero : (((get_unprocessed_items input store).map
            (fun it => (⟨it.src_id, (resolve it).1, (resolve it).2⟩ : StoreRow))).filter
              (fun r => pyStrip r.src_id == i)).length = 0 := by
          rw [List.length_eq_zero, List.filter_eq_nil_iff]
          intro r hr hri
          rcases List.mem_map.mp hr with ⟨it, hitmem, hmk⟩
          rcases List.mem_filter.mp hitmem with ⟨_, hcond⟩
          have hstrip : pyStrip r.src_id = pyStrip it.src_id := by rw [← hmk]
          rw [hstrip] at hri
          have hne : (pyStrip it.src_id != "") = true := by
            simp only [Bool.and_eq_true] at hcond
            exact hcond.1
          rw [eq_of_beq hri, hi] at hne
          simp at hne
        rw [hzero, Nat.add_zero]
        exact le_max_left _ _
      · have hstore0 : countRows store i = 0 := by
          unfold countRows
          rw [List.length_eq_zero, List.filter_eq_nil_iff]
          intro r hr hri
          exact hproc (eq_of_beq hri ▸ mem_processed_of_row hr
            (by rw [eq_of_beq hri]; exact hi))
        rw [hstore0, Nat.zero_add]
        refine le_max_of_le_right ?_
        rw [List.filter_map]
        rw [List.length_map]
        have hsub : ((get_unprocessed_items input store).filter
            ((fun r : StoreRow => pyStrip r.src_id == i) ∘
              (fun it => (⟨it.src_id, (resolve it).1, (resolve it).2⟩ : StoreRow)))).length ≤
            (input.filter (fun it => pyStrip it.src_id == i)).length := by
          unfold get_unprocessed_items
          rw [List.filter_filter]
          have hmono : ∀ l : List SrcRecord,
              (l.filter (fun it =>
                ((fun r : StoreRow => pyStrip r.src_id == i) ∘
                  (fun it => (⟨it.src_id, (resolve it).1, (resolve it).2⟩ : StoreRow))) it &&
                ((pyStrip it.src_id != "") &&
                  !(get_processed_ids store).contains (pyStrip it.src_id)))).length ≤
              (l.filter (fun it => pyStrip it.src_id == i)).length := by
            intro l
            induction l with
            | nil => simp
            | cons x xs ihx =>
              rw [List.filter_cons, List.filter_cons]
              by_cases hx : (((fun r : StoreRow => pyStrip r.src_id == i) ∘
                  (fun it => (⟨it.src_id, (resolve it).1, (resolve it).2⟩ : StoreRow))) x &&
                  ((pyStrip x.src_id != "") &&
                    !(get_processed_ids store).contains (pyStrip x.src_id))) = true
              · rw [if_pos hx]
                have hx1 : (pyStrip x.src_id == i) = true := by
                  simp only [Bool.and_eq_true, Function.comp] at hx
                  exact hx.1
                rw [if_pos hx1]
                simpa using ihx
              · rw [if_neg hx]
                by_cases hx1 : (pyStrip x.src_id == i) = true
                · rw [if_pos hx1]
                  exact Nat.le_succ_of_le ihx
                · rw [if_neg hx1]
                  exact ihx
          exact hmono input
        exact le_trans hsub (nodup_filter_count_le_one hnodup)

/-- Witness for C1 at a one-record input over the empty store: after one run
the unprocessed set of the second run is empty. -/
theorem run_controller_idempotent_per_id_witness :
    get_unprocessed_items [⟨"a", "t"⟩]
        (runMatching (fun _ => ("", "none")) [⟨"a", "t"⟩] []) = [] :=
  (run_controller_idempotent_per_id (fun _ => ("", "none")) [⟨"a", "t"⟩] []
    (by decide)).1

/-! ## The output write loop of main (src/match_with_bgg.py lines 446-545) -/

/-- A buffered output file: rows already on disk (flushed) and rows still in
the userspace buffer, which a crash loses. -/
structure BufFile where
  durable : List Nat
  buffered : List Nat
deriving DecidableEq

/-- writer.writerow: append one row to the buffer. -/
def writerow (f : BufFile) (r : Nat) : BufFile :=
  ⟨f.durable, f.buffered ++ [r]⟩

/-- csvfile.flush: move the buffer to disk. -/
def flushFile (f : BufFile) : BufFile :=
  ⟨f.durable ++ f.buffered, []⟩

/-- One iteration of the output loop of main (lines 472-543) at record index
`i` with prepared row `r`: skip when the index is below the resume count;
otherwise write the row (line 540) and flush only when i + 1 is a multiple of
10 (lines 541-542). -/
def mainLoopStep (skip : Nat) (f : BufFile) (i : Nat) (r : Nat) : BufFile :=
  if i < skip then f
  else
    let f1 := writerow f r
    if (i + 1) % 10 = 0 then flushFile f1 else f1

/-- Run the output loop from index `i` over the given prepared rows. -/
def mainLoopAux (skip : Nat) : BufFile → Nat → List Nat → BufFile
  | f, _, [] => f
  | f, i, r :: rest => mainLoopAux skip (mainLoopStep skip f i r) (i + 1) rest

/-- The file state after the first `k` records of a fresh run (skip = 0). -/
def mainLoopState (rows : List Nat) (k : Nat) : BufFile :=
  mainLoopAux 0 ⟨[], []⟩ 0 (rows.take k)

/-- C3 counterexample: after the row of the first record has been appended — hence
before any next record is processed — the row sits only in the unflushed
buffer and the durable store is still empty, so a crash there loses it: the
store is not flushed immediately after each record. -/
theorem flush_not_immediate_counterexample :
    (mainLoopState [7] 1).buffered = [7] ∧ (mainLoopState [7] 1).durable = [] :=
  ⟨rfl, rfl⟩

theorem mainLoopAux_append (skip : Nat) (f : BufFile) (i : Nat) (l : List Nat)
    (r : Nat) :
    mainLoopAux skip f i (l ++ [r]) =
      mainLoopStep skip (mainLoopAux skip f i l) (i + l.length) r := by
  induction l generalizing f i with
  | nil => simp [mainLoopAux]
  | cons x xs ih =>
    show mainLoopAux skip (mainLoopStep skip f i x) (i + 1) (xs ++ [r]) = _
    rw [ih]
    have harith : i + 1 + xs.length = i + (x :: xs).length := by
      simp only [List.length_cons]
      omega
    rw [harith]
    rfl

/-- C3 amended: in a fresh run the loop flushes exactly after every record
whose 1-based index is a multiple of 10: after k records the durable part
holds precisely the first 10 * (k / 10) rows, the remaining k % 10 (at most
nine) appended rows sit in the buffer in order, and durable plus buffer
together are exactly the appended rows. A crash between flushes therefore
loses up to the last k % 10 complete rows plus the in-flight record — not at
most the single in-flight record. -/
theorem main_loop_flush_every_ten (rows : List Nat) (k : Nat)
    (hk : k ≤ rows.length) :
    (mainLoopState rows k).durable = rows.take (10 * (k / 10)) ∧
    (mainLoopState rows k).buffered = (rows.take k).drop (10 * (k / 10)) ∧
    (mainLoopState rows k).buffered.length = k % 10 := by
  induction k with
  | zero => exact ⟨rfl, rfl, rfl⟩
  | succ n ih =>
    have hn : n ≤ rows.length := Nat.le_of_succ_le hk
    have hnlt : n < rows.length := hk
    obtain ⟨hd, hb, hl⟩ := ih hn
    have hstate : mainLoopState rows (n + 1) =
        mainLoopStep 0 (mainLoopState rows n) n rows[n] := by
      unfold mainLoopState
      rw [List.take_succ, List.getElem?_eq_getElem hnlt]
      simp only [Option.toList_some]
      rw [mainLoopAux_append]
      have : (0 : Nat) + (rows.take n).length = n := by
        rw [List.length_take_of_le hn]
        omega
      rw [this]
    have hdiv : 10 * (n / 10) ≤ n := Nat.mul_div_le n 10
    have htklen : (rows.take n).length = n := List.length_take_of_le hn
    by_cases h10 : (n + 1) % 10 = 0
    · have hstep : mainLoopStep 0 (mainLoopState rows n) n rows[n] =
          flushFile (writerow (mainLoopState rows n) rows[n]) := by
        unfold mainLoopStep
        rw [if_neg (by omega), if_pos h10]
      rw [hstate, hstep]
      have hdur : (flushFile (writerow (mainLoopState rows n) rows[n])).durable =
          rows.take n ++ [rows[n]] := by
        unfold flushFile writerow
        simp only
        rw [hd, hb, ← List.append_assoc]
        have h1 : rows.take (10 * (n / 10)) = (rows.take n).take (10 * (n / 10)) := by
          rw [List.take_take, Nat.min_eq_left hdiv]
        rw [h1, List.take_append_drop]
      have htk : rows.take (n + 1) = rows.take n ++ [rows[n]] := by
        rw [List.take_succ, List.getElem?_eq_getElem hnlt]
        simp
      refine ⟨?_, ?_, ?_⟩
      · rw [hdur]
        have : 10 * ((n + 1) / 10) = n + 1 := by omega
        rw [this, htk]
      · show ([] : List Nat) = (rows.take (n + 1)).drop (10 * ((n + 1) / 10))
        have : 10 * ((n + 1) / 10) = n + 1 := by omega
        rw [this]
        rw [List.drop_eq_nil_of_le]
        rw [List.length_take_of_le hk]
      · show ([] : List Nat).length = (n + 1) % 10
        simp [h10]
    · have hstep : mainLoopStep 0 (mainLoopState rows n) n rows[n] =
          writerow (mainLoopState rows n) rows[n] := by
        unfold mainLoopStep
        rw [if_neg (by omega), if_neg h10]
      rw [hstate, hstep]
      have hdiveq : 10 * ((n + 1) / 10) = 10 * (n / 10) := by omega
      have htk : rows.take (n + 1) = rows.take n ++ [rows[n]] := by
        rw [List.take_succ, List.getElem?_eq_getElem hnlt]
        simp
      refine ⟨?_, ?_, ?_⟩
      · show (mainLoopState rows n).durable = _
        rw [hd, hdiveq]
      · show (mainLoopState rows n).buffered ++ [rows[n]] = _
        rw [hb, hdiveq, htk]
        rw [List.drop_append_of_le_length (by rw [htklen]; exact hdiv)]
      · show ((mainLoopState rows n).buffered ++ [rows[n]]).length = _
        rw [List.length_append, hl]
        simp only [List.length_singleton]
        omega

/-- Witness for the amended statement of C3 at three records of a fresh run: after
two records nothing is durable yet and both rows are buffered. -/
theorem main_loop_flush_every_ten_witness :
    (mainLoopState [1, 2, 3] 2).durable = [] ∧
    (mainLoopState [1, 2, 3] 2).buffered = [1, 2] ∧
    (mainLoopState [1, 2, 3] 2).buffered.length = 2 := by
  have h := main_loop_flush_every_ten [1, 2, 3] 2 (by decide)
  exact ⟨h.1, by rw [h.2.1]; rfl, h.2.2⟩

end BggFinna
